import Mathlib

/-!
Verification of the NURBS core of `mesh/nurbs.cpp` (MFEM).

This file gives a shallow embedding, over exact rationals, of the
knot-vector algebra and the patch operations of `mesh/nurbs.cpp`:
`KnotVector::Difference`, `KnotVector::DegreeElevate`,
`KnotVector::CalcShape`, `NURBSPatch::KnotRemove` (in its
loop-direction "slice" view), `NURBSExtension::GenerateOffsets`,
`NURBSExtension::Generate2DBdrElementDofTable` /
`Generate3DBdrElementDofTable`, `KnotVector::Flip`,
`NURBSExtension::CreateComprehensiveKV` and
`NURBSExtension::ConsistentKVSets`, together with theorems settling
the specified properties of those operations.

`real_t` is embedded as `ℚ`; `std::numeric_limits<real_t>::epsilon()`
becomes the constant `machEps` below.  Fatal precondition violations
(`mfem_error` / `MFEM_VERIFY`) are embedded as `Option`/`Except`
failures.  Reads of C++ arrays are embedded with `List.getD`; an
out-of-bounds access that the C++ code would perform on undefined
memory is flagged explicitly where it can influence a result.
-/

namespace MfemNurbs

/-- `std::numeric_limits<double>::epsilon() = 2^-52`, as an exact rational. -/
def machEps : ℚ := 1 / 2 ^ 52

/-- Embedding of `mfem::KnotVector`: polynomial order, the stored
control-point count `NumOfControlPoints`, and the knot sequence
(`knot`, of intended length `NumOfControlPoints + Order + 1`). -/
structure KnotVec where
  order : ℕ
  ncp : ℕ
  knots : List ℚ
  deriving DecidableEq, Repr

/-- `KnotVector::Size()` is the length of the knot array. -/
def KnotVec.size (kv : KnotVec) : ℕ := kv.knots.length

/-- The scan loop of `KnotVector::Difference` (`nurbs.cpp:737-751`):
walk the larger knot list `large`, matching each entry against the
current entry of the smaller list `small` within `2*machEps`; a match
advances the pointer into `small`, a mismatch emits the entry of
`large`.  When `small` is exhausted while entries of `large` remain,
the C++ code reads `knot(i)` out of bounds; this is embedded as an
error. -/
def diffScan (small large : List ℚ) : Except Unit (List ℚ) :=
  match large, small with
  | [], _ => .ok []
  | _ :: _, [] => .error ()
  | y :: ys, x :: xs =>
    if |x - y| < 2 * machEps then
      diffScan xs ys
    else
      match diffScan (x :: xs) ys with
      | .ok d => .ok (y :: d)
      | .error e => .error e

/-- The body of `KnotVector::Difference` after the order check and the
swap (`nurbs.cpp:726-751`), with `small` the knots of `this` and
`large` the knots of the argument, `large` at least as long:
`diff.SetSize(s)` with `s = 0` returns an empty difference without any
elementwise comparison; otherwise the scan loop runs.  A scan result
whose length differs from `s` corresponds to the C++ code writing past
the end of `diff` (or leaving entries uninitialized) and is embedded
as an error. -/
def differenceCore (small large : List ℚ) : Except Unit (List ℚ) :=
  if large.length = small.length then .ok []
  else
    match diffScan small large with
    | .ok d => if d.length = large.length - small.length then .ok d else .error ()
    | .error e => .error e

/-- `KnotVector::Difference` (`nurbs.cpp:718-751`): fatal error on an
order mismatch; if the argument is shorter than `this`, the roles are
swapped. -/
def KVDifference (a b : KnotVec) : Except Unit (List ℚ) :=
  if a.order ≠ b.order then .error ()
  else if b.size < a.size then differenceCore b.knots a.knots
  else differenceCore a.knots b.knots

/-- `C10`: for every pair of KnotVectors of equal order whose knot
sequences have the same length, `Difference` returns an empty result,
even when the two sequences contain different knot values (the `s = 0`
early return fires before any elementwise comparison). -/
theorem difference_equal_length_empty (a b : KnotVec)
    (horder : a.order = b.order) (hlen : a.size = b.size) :
    KVDifference a b = .ok [] := by
  have hl : b.knots.length = a.knots.length := hlen.symm
  unfold KVDifference differenceCore
  simp [horder, KnotVec.size, hl]

/-- Witness for `C10`: two order-1 knot vectors of equal length with
entirely different knot values still give an empty difference. -/
theorem difference_equal_length_empty_witness :
    KVDifference ⟨1, 2, [0, 0, 1, 1]⟩ ⟨1, 2, [0, 0, 1/2, 1]⟩ = .ok [] :=
  difference_equal_length_empty _ _ rfl rfl

/-- `KnotVector::DegreeElevate(t)` (`nurbs.cpp:111-138`): fatal for
`t < 0`; otherwise a new KnotVector of order `Order + t` with
`GetNCP() + t` control points whose knot array of size
`newNCP + nOrder + 1` is filled by the three loops: indices
`0..nOrder` get `knot(0)`, indices `nOrder+1..newNCP-1` get
`knot(i-t)`, and indices `newNCP..newNCP+nOrder` get
`knot(Size()-1)`. -/
def kvDegreeElevate (kv : KnotVec) (t : ℤ) : Option KnotVec :=
  if t < 0 then none
  else
    -- nOrder = Order + t, new NCP = GetNCP() + t, knot array size nNCP + nOrder + 1
    some { order := kv.order + t.toNat
           ncp := kv.ncp + t.toNat
           knots := (List.range (kv.ncp + t.toNat + (kv.order + t.toNat) + 1)).map fun i =>
             if i ≤ kv.order + t.toNat then kv.knots.getD 0 0
             else if i < kv.ncp + t.toNat then kv.knots.getD (i - t.toNat) 0
             else kv.knots.getD (kv.knots.length - 1) 0 }

/-- `C2` counterexample: on the order-1 KnotVector `[0,0,3,5,5]`
(3 control points, 2 elements, interior knot `3` of multiplicity 1),
`DegreeElevate(1)` produces `[0,0,0,3,5,5,5]` with 4 control points:
the interior multiplicity stays 1 (the claim demands `1 + t = 2`) and
the control-point count grows by `t = 1`, not by
`#elements × t = 2`. -/
theorem degreeElevate_counterexample :
    kvDegreeElevate ⟨1, 3, [0, 0, 3, 5, 5]⟩ 1
        = some ⟨2, 4, [0, 0, 0, 3, 5, 5, 5]⟩ ∧
    [0, 0, 0, (3:ℚ), 5, 5, 5].count 3
        ≠ [0, 0, (3:ℚ), 5, 5].count 3 + 1 ∧
    (4 : ℕ) ≠ 3 + 2 * 1 := by
  refine ⟨by decide, by decide, by decide⟩

/-- Mapping a function over `List.range (a + b + c)`, split into the
three index windows. -/
theorem map_range_three {α : Type} (f : ℕ → α) (a b c : ℕ) :
    (List.range (a + b + c)).map f
      = ((List.range a).map f) ++ ((List.range b).map fun j => f (a + j))
        ++ ((List.range c).map fun j => f (a + b + j)) := by
  rw [List.range_add, List.map_append, List.range_add, List.map_append,
    List.map_map, List.map_map]
  rfl

/-- A contiguous window of a list, written through `getD` reads. -/
theorem drop_take_eq_map_getD (l : List ℚ) (m k : ℕ) (h : m + k ≤ l.length) :
    (l.drop m).take k = (List.range k).map fun j => l.getD (m + j) 0 := by
  apply List.ext_getElem
  · simp
    omega
  · intro n h1 h2
    have hn : n < k := by simpa using h2
    have hml : m + n < l.length := by omega
    simp [List.getElem_take, List.getElem_drop, hn,
      List.getD_eq_getElem?_getD, List.getElem?_eq_getElem hml]

/-- `C2` amended: for `t ≥ 0`, `KnotVector::DegreeElevate(t)` returns
a new KnotVector of order `p+t` and control-point count `ncp + t`
(not `ncp + #elements⋅t`) whose knot array is `p+t+1` copies of the
first knot, followed by the old interior knots *unchanged* (no
multiplicity increase), followed by `p+t+1` copies of the last knot;
`t < 0` is a fatal precondition violation. -/
theorem degreeElevate_amended (kv : KnotVec) (t : ℤ) (ht : 0 ≤ t)
    (hlen : kv.knots.length = kv.ncp + kv.order + 1)
    (hop : kv.order + 1 ≤ kv.ncp) :
    kvDegreeElevate kv t = some
      { order := kv.order + t.toNat
        ncp := kv.ncp + t.toNat
        knots :=
          List.replicate (kv.order + t.toNat + 1) (kv.knots.getD 0 0)
          ++ (kv.knots.drop (kv.order + 1)).take (kv.ncp - (kv.order + 1))
          ++ List.replicate (kv.order + t.toNat + 1)
              (kv.knots.getD (kv.knots.length - 1) 0) }
    ∧ ∀ t' : ℤ, t' < 0 → kvDegreeElevate kv t' = none := by
  constructor
  · unfold kvDegreeElevate
    rw [if_neg (not_lt.mpr ht)]
    set p := kv.order with hp
    set tn := t.toNat with htn
    set f : ℕ → ℚ := fun i =>
      if i ≤ p + tn then kv.knots.getD 0 0
      else if i < kv.ncp + tn then kv.knots.getD (i - tn) 0
      else kv.knots.getD (kv.knots.length - 1) 0 with hf
    have hsplit : kv.ncp + tn + (p + tn) + 1
        = (p + tn + 1) + (kv.ncp - (p + 1)) + (p + tn + 1) := by omega
    have hseg1 : (List.range (p + tn + 1)).map f
        = List.replicate (p + tn + 1) (kv.knots.getD 0 0) := by
      apply List.eq_replicate_iff.mpr
      refine ⟨by simp, ?_⟩
      intro b hb
      simp only [List.mem_map, List.mem_range] at hb
      obtain ⟨i, hi, rfl⟩ := hb
      have h1 : i ≤ p + tn := by omega
      simp [hf, h1]
    have hseg2 : ((List.range (kv.ncp - (p + 1))).map fun j => f (p + tn + 1 + j))
        = (kv.knots.drop (p + 1)).take (kv.ncp - (p + 1)) := by
      rw [drop_take_eq_map_getD _ _ _ (by omega)]
      apply List.map_congr_left
      intro j hj
      simp only [List.mem_range] at hj
      have h1 : ¬ (p + tn + 1 + j ≤ p + tn) := by omega
      have h2 : p + tn + 1 + j < kv.ncp + tn := by omega
      simp only [hf, h1, if_false, h2, if_true]
      congr 1
      omega
    have hseg3 :
        ((List.range (p + tn + 1)).map fun j => f (p + tn + 1 + (kv.ncp - (p + 1)) + j))
        = List.replicate (p + tn + 1) (kv.knots.getD (kv.knots.length - 1) 0) := by
      apply List.eq_replicate_iff.mpr
      refine ⟨by simp, ?_⟩
      intro b hb
      simp only [List.mem_map, List.mem_range] at hb
      obtain ⟨i, hi, rfl⟩ := hb
      have h1 : ¬ (p + tn + 1 + (kv.ncp - (p + 1)) + i ≤ p + tn) := by omega
      have h2 : ¬ (p + tn + 1 + (kv.ncp - (p + 1)) + i < kv.ncp + tn) := by omega
      simp [hf, h1, h2]
    rw [hsplit, map_range_three, hseg1, hseg2, hseg3]
  · intro t' ht'
    unfold kvDegreeElevate
    rw [if_pos ht']

/-- Witness for the amended `C2` on the counterexample input. -/
theorem degreeElevate_amended_witness :
    kvDegreeElevate ⟨1, 3, [0, 0, 1/2, 1, 1]⟩ 1
      = some ⟨2, 4, [0, 0, 0, 1/2, 1, 1, 1]⟩ := by
  have h := (degreeElevate_amended ⟨1, 3, [0, 0, 1/2, 1, 1]⟩ 1
      (by norm_num) (by decide) (by decide)).1
  simpa using h

/-- Modelled from the spec: `KnotVector::getKnotLocation` is declared
in `nurbs.hpp`, which is not among the sources here.  Per §4.1 of the
spec it maps a local parameter `xi ∈ [0,1]` to the physical parameter
inside the knot span `[knot(ip), knot(ip+1)]`. -/
def getKnotLocation (knots : List ℚ) (xi : ℚ) (ip : ℕ) : ℚ :=
  (1 - xi) * knots.getD ip 0 + xi * knots.getD (ip + 1) 0

/-- One pass of the inner `r` loop of `KnotVector::CalcShape`
(`nurbs.cpp:359-366`) at level `j`: the entries of `shape` are
processed in order with the running accumulator `saved`, and the final
`saved` becomes the new `shape(j)`.  `tmp = shape(r)/(right[r+1] +
left[j-r])` is inlined. -/
def shapeLevelAux (lft rgt : ℕ → ℚ) (j : ℕ) : ℕ → ℚ → List ℚ → List ℚ
  | _, saved, [] => [saved]
  | r, saved, v :: vs =>
    (saved + rgt (r + 1) * (v / (rgt (r + 1) + lft (j - r)))) ::
      shapeLevelAux lft rgt j (r + 1) (lft (j - r) * (v / (rgt (r + 1) + lft (j - r)))) vs

/-- The `j` loop of `KnotVector::CalcShape` (`nurbs.cpp:354-367`):
`shape(0) = 1`, then for `j = 1..p` one triangular pass, with
`left[j] = u - knot(ip+1-j)` and `right[j] = knot(ip+j) - u`. -/
def calcShapeLoop (knots : List ℚ) (u : ℚ) (ip : ℕ) (p : ℕ) : List ℚ :=
  (List.range p).foldl
    (fun shape j' =>
      shapeLevelAux (fun j => u - knots.getD (ip + 1 - j) 0)
        (fun j => knots.getD (ip + j) 0 - u) (j' + 1) 0 0 shape)
    [1]

/-- `KnotVector::CalcShape` (`nurbs.cpp:345-368`): a non-negative span
index `i` gives `ip = i + p` and evaluation at `xi`; a negative one
gives the mirrored `ip = -1 - i + p` and evaluation at `1 - xi`. -/
def calcShape (knots : List ℚ) (p : ℕ) (i : ℤ) (xi : ℚ) : List ℚ :=
  calcShapeLoop knots
    (getKnotLocation knots (if 0 ≤ i then xi else 1 - xi)
      ((if 0 ≤ i then i + p else -1 - i + p).toNat))
    ((if 0 ≤ i then i + p else -1 - i + p).toNat) p

/-- Each triangular pass preserves the sum of the shape values (up to
the incoming accumulator), provided none of the divisors
`right[r+1] + left[j-r]` vanish. -/
theorem shapeLevelAux_sum (lft rgt : ℕ → ℚ) (j : ℕ) (vs : List ℚ) :
    ∀ (r : ℕ) (saved : ℚ),
      (∀ k, k < vs.length → rgt (r + k + 1) + lft (j - (r + k)) ≠ 0) →
      (shapeLevelAux lft rgt j r saved vs).sum = saved + vs.sum := by
  induction vs with
  | nil => intro r saved _; simp [shapeLevelAux]
  | cons v vs ih =>
    intro r saved h
    have hD : rgt (r + 1) + lft (j - r) ≠ 0 := by
      have h0 := h 0 (by simp)
      simpa using h0
    have hrec := ih (r + 1) (lft (j - r) * (v / (rgt (r + 1) + lft (j - r))))
      (fun k hk => by
        have hk1 := h (k + 1) (by simpa using Nat.succ_lt_succ hk)
        have he : r + (k + 1) = r + 1 + k := by omega
        rw [he] at hk1
        exact hk1)
    simp only [shapeLevelAux, List.sum_cons]
    rw [hrec]
    have hcomb : (rgt (r + 1) + lft (j - r)) * (v / (rgt (r + 1) + lft (j - r))) = v :=
      mul_div_cancel₀ v hD
    linear_combination hcomb

/-- Each triangular pass grows the shape list by one entry. -/
theorem shapeLevelAux_length (lft rgt : ℕ → ℚ) (j : ℕ) (vs : List ℚ) :
    ∀ (r : ℕ) (saved : ℚ),
      (shapeLevelAux lft rgt j r saved vs).length = vs.length + 1 := by
  induction vs with
  | nil => intro r saved; simp [shapeLevelAux]
  | cons v vs ih =>
    intro r saved
    simp [shapeLevelAux, ih]

/-- The full Cox–de Boor triangle: after `p` passes the `p+1` shape
values sum to `1`, provided no divisor in any pass vanishes. -/
theorem calcShapeFold_sum (lft rgt : ℕ → ℚ) (p : ℕ)
    (hden : ∀ j r, 1 ≤ j → j ≤ p → r < j → rgt (r + 1) + lft (j - r) ≠ 0) :
    ((List.range p).foldl
        (fun shape j' => shapeLevelAux lft rgt (j' + 1) 0 0 shape) [1]).sum = 1 ∧
    ((List.range p).foldl
        (fun shape j' => shapeLevelAux lft rgt (j' + 1) 0 0 shape) [1]).length = p + 1 := by
  induction p with
  | zero => simp
  | succ p ih =>
    have hden' : ∀ j r, 1 ≤ j → j ≤ p → r < j → rgt (r + 1) + lft (j - r) ≠ 0 :=
      fun j r h1 h2 h3 => hden j r h1 (by omega) h3
    obtain ⟨ihs, ihl⟩ := ih hden'
    rw [List.range_succ, List.foldl_append]
    constructor
    · rw [List.foldl_cons, List.foldl_nil,
        shapeLevelAux_sum _ _ _ _ _ _ (fun k hk => by
          rw [ihl] at hk
          have := hden (p + 1) k (by omega) (by omega) (by omega)
          simpa using this),
        ihs, zero_add]
    · rw [List.foldl_cons, List.foldl_nil, shapeLevelAux_length, ihl]

/-- `C4`: partition of unity.  For every knot sequence, order `p`, and
non-negative span index `i` denoting a non-degenerate element (so that
`knot(i+p) < knot(i+p+1)` and the knots are non-decreasing over the
accessed window `[i+1, i+2p]`), and every local parameter
`xi ∈ [0,1)`, the `p+1` values computed by `CalcShape` sum to `1`. -/
theorem calcShape_partition_of_unity (knots : List ℚ) (p : ℕ) (i : ℕ) (xi : ℚ)
    (hxi0 : 0 ≤ xi) (hxi1 : xi < 1)
    (hmono : ∀ a b : ℕ, i + 1 ≤ a → a ≤ b → b ≤ i + 2 * p →
      knots.getD a 0 ≤ knots.getD b 0)
    (hel : knots.getD (i + p) 0 < knots.getD (i + p + 1) 0) :
    (calcShape knots p (i : ℤ) xi).sum = 1 := by
  have hnn : (0 : ℤ) ≤ (i : ℤ) := Int.ofNat_nonneg i
  have hip : ((if (0:ℤ) ≤ (i:ℤ) then (i:ℤ) + p else -1 - i + p)).toNat = i + p := by
    rw [if_pos hnn]
    omega
  unfold calcShape
  rw [hip, if_pos hnn]
  refine (calcShapeFold_sum _ _ p ?_).1
  intro j r h1 h2 h3
  set u := getKnotLocation knots xi (i + p) with hu
  have hlo : i + 1 ≤ i + p + 1 - (j - r) := by omega
  have hhi : i + p + r + 1 ≤ i + 2 * p := by omega
  have hB : knots.getD (i + p + 1 - (j - r)) 0 ≤ knots.getD (i + p) 0 := by
    apply hmono _ _ hlo (by omega) (by omega)
  have hA : knots.getD (i + p + 1) 0 ≤ knots.getD (i + p + r + 1) 0 := by
    apply hmono _ _ (by omega) (by omega) hhi
  have hpos : 0 < knots.getD (i + p + r + 1) 0 - knots.getD (i + p + 1 - (j - r)) 0 := by
    calc (0:ℚ) < knots.getD (i + p + 1) 0 - knots.getD (i + p) 0 := by linarith
    _ ≤ knots.getD (i + p + r + 1) 0 - knots.getD (i + p + 1 - (j - r)) 0 := by linarith
  have harith : knots.getD (i + p + r + 1) 0 - u + (u - knots.getD (i + p + 1 - (j - r)) 0)
      = knots.getD (i + p + r + 1) 0 - knots.getD (i + p + 1 - (j - r)) 0 := by ring
  have hidx : i + p + (r + 1) = i + p + r + 1 := by omega
  rw [hidx, harith]
  exact ne_of_gt hpos

/-- Witness for `C4`: the order-1 knot vector `[0,0,1,1]`, span `0`,
`xi = 1/2`. -/
theorem calcShape_partition_of_unity_witness :
    (calcShape [0, 0, 1, 1] 1 ((0 : ℕ) : ℤ) (1/2)).sum = 1 := by
  apply calcShape_partition_of_unity
  · norm_num
  · norm_num
  · intro a b ha hab hb
    have ha2 : a ≤ 2 := by omega
    have hb2 : b ≤ 2 := by omega
    interval_cases a <;> interval_cases b <;> norm_num
  · norm_num

/-- A NURBS patch viewed through the loop-direction abstraction of
`NURBSPatch::SetLoopDirection` (`nurbs.cpp:979-1052`): along the
chosen direction the control net is a sequence of slices, each a flat
vector of `size` reals; `p` and `knots` are the order and knots of
`kv[dir]`. -/
structure SlicePatch where
  p : ℕ
  knots : List ℚ
  cps : List (List ℚ)
  deriving DecidableEq, Repr

/-- `patch.slice(k, ·)`: an out-of-range `k` reads unspecified memory
in the C++ code; it is embedded as the empty slice. -/
def getSlice (cps : List (List ℚ)) (k : ℤ) : List ℚ :=
  if 0 ≤ k then cps.getD k.toNat [] else []

/-- `knot(i)` with the C++ out-of-bounds read embedded as `0`. -/
def kAt (knots : List ℚ) (i : ℤ) : ℚ :=
  if 0 ≤ i then knots.getD i.toNat 0 else 0

theorem getSlice_neg (cps : List (List ℚ)) (k : ℤ) (h : k < 0) : getSlice cps k = [] := by
  unfold getSlice
  rw [if_neg (by omega)]

theorem getSlice_nil (k : ℤ) : getSlice [] k = [] := by
  unfold getSlice
  split <;> simp

theorem getSlice_cons_zero (s : List ℚ) (cps : List (List ℚ)) :
    getSlice (s :: cps) 0 = s := rfl

theorem getSlice_cons_pos (s : List ℚ) (cps : List (List ℚ)) (k : ℤ) (h : 0 < k) :
    getSlice (s :: cps) k = getSlice cps (k - 1) := by
  unfold getSlice
  rw [if_pos (by omega), if_pos (by omega)]
  have : k.toNat = (k - 1).toNat + 1 := by omega
  rw [this]
  rfl

theorem kAt_neg (knots : List ℚ) (i : ℤ) (h : i < 0) : kAt knots i = 0 := by
  unfold kAt
  rw [if_neg (by omega)]

theorem kAt_nil (i : ℤ) : kAt [] i = 0 := by
  unfold kAt
  split <;> simp

theorem kAt_cons_zero (x : ℚ) (l : List ℚ) : kAt (x :: l) 0 = x := rfl

theorem kAt_cons_pos (x : ℚ) (l : List ℚ) (i : ℤ) (h : 0 < i) :
    kAt (x :: l) i = kAt l (i - 1) := by
  unfold kAt
  rw [if_pos (by omega), if_pos (by omega)]
  have : i.toNat = (i - 1).toNat + 1 := by omega
  rw [this]
  rfl

/-- Componentwise subtraction of slices. -/
def vsub (a b : List ℚ) : List ℚ := List.zipWith (· - ·) a b

/-- Scalar multiple of a slice. -/
def vsmul (c : ℚ) (a : List ℚ) : List ℚ := a.map (c * ·)

/-- Sum of squares of a slice: `Vector::Norml2()` is the square root
of this quantity. -/
def sumSq (v : List ℚ) : ℚ := (v.map fun x => x ^ 2).sum

/-- `dist >= tol` with `dist = sqrt S` (`S` a sum of squares, hence
non-negative), written without square roots: for `tol ≤ 0` it always
holds, otherwise it is `tol^2 ≤ S`. -/
def distGeTol (S tol : ℚ) : Prop :=
  tol ≤ 0 ∨ tol ^ 2 ≤ S

instance (S tol : ℚ) : Decidable (distGeTol S tol) := by
  unfold distGeTol
  infer_instance

/-- The iteration body of the first inner `while` loop of
`NURBSPatch::KnotRemove`, recursing on fuel. -/
def krComputeGo (old : SlicePatch) (u : ℚ) (pp : ℤ) (t : ℤ) :
    ℕ → ℤ → ℤ → ℤ → ℤ → (ℤ → List ℚ) → ℤ × ℤ × ℤ × ℤ × (ℤ → List ℚ)
  | 0, i, j, ii, jj, temp => (i, j, ii, jj, temp)
  | fuel + 1, i, j, ii, jj, temp =>
    if t < j - i then
      krComputeGo old u pp t fuel (i + 1) (j - 1) (ii + 1) (jj - 1)
        (fun k =>
          if k = jj then
            vsmul (1 / (1 - (u - kAt old.knots j)
                / (kAt old.knots (j + pp + 1) - kAt old.knots j)))
              (vsub (getSlice old.cps j)
                (vsmul ((u - kAt old.knots j)
                    / (kAt old.knots (j + pp + 1) - kAt old.knots j))
                  (if jj + 1 = ii then
                    vsub (vsmul (1 / ((u - kAt old.knots i)
                          / (kAt old.knots (i + pp + 1) - kAt old.knots i)))
                        (getSlice old.cps i))
                      (vsmul (1 / ((u - kAt old.knots i)
                          / (kAt old.knots (i + pp + 1) - kAt old.knots i)) - 1)
                        (temp (ii - 1)))
                  else temp (jj + 1))))
          else if k = ii then
            vsub (vsmul (1 / ((u - kAt old.knots i)
                  / (kAt old.knots (i + pp + 1) - kAt old.knots i)))
                (getSlice old.cps i))
              (vsmul (1 / ((u - kAt old.knots i)
                  / (kAt old.knots (i + pp + 1) - kAt old.knots i)) - 1)
                (temp (ii - 1)))
          else temp k)
    else (i, j, ii, jj, temp)

/-- The first inner `while (j - i > t)` loop of `NURBSPatch::KnotRemove`
(`nurbs.cpp:1350-1367`), with `a_i`, `a_j` inlined and the two `temp`
writes of one iteration expressed as a single function update (the
`jj` write may read the `ii` value written in the same iteration,
hence the `jj + 1 = ii` case).  The loop runs as long as `j - i > t`
and `j - i` drops by 2 per iteration, so `(j - i - t).toNat` bounds
the iteration count, and the guard is rechecked every round: the fuel
recursion computes exactly the C++ while loop. -/
def krComputeLoop (old : SlicePatch) (u : ℚ) (pp : ℤ) (t : ℤ)
    (i j ii jj : ℤ) (temp : ℤ → List ℚ) : ℤ × ℤ × ℤ × ℤ × (ℤ → List ℚ) :=
  krComputeGo old u pp t (j - i - t).toNat i j ii jj temp

/-- The iteration body of the second inner `while` loop of
`NURBSPatch::KnotRemove`, recursing on fuel. -/
def krCopyGo (t : ℤ) (off : ℤ) (temp : ℤ → List ℚ) :
    ℕ → ℤ → ℤ → (ℤ → List ℚ) → ℤ × ℤ × (ℤ → List ℚ)
  | 0, i, j, tmpp => (i, j, tmpp)
  | fuel + 1, i, j, tmpp =>
    if t < j - i then
      krCopyGo t off temp fuel (i + 1) (j - 1)
        (fun k =>
          if k = j then temp (j - off)
          else if k = i then temp (i - off)
          else tmpp k)
    else (i, j, tmpp)

/-- The second inner `while (j - i > t)` loop of
`NURBSPatch::KnotRemove` (`nurbs.cpp:1401-1410`): the accepted
candidate control points are copied from `temp` into `tmpp`.  As
above, `(j - i - t).toNat` bounds the iteration count and the guard
is rechecked every round. -/
def krCopyLoop (t : ℤ) (off : ℤ) (temp : ℤ → List ℚ)
    (i j : ℤ) (tmpp : ℤ → List ℚ) : ℤ × ℤ × (ℤ → List ℚ) :=
  krCopyGo t off temp (j - i - t).toNat i j tmpp

/-- The outer `for (t = 0; t < ntimes; ++t)` loop of
`NURBSPatch::KnotRemove` (`nurbs.cpp:1337-1414`), with `tleft`
removal steps remaining and `t` steps already performed.  `.inr t`
embeds the early `return t` on a tolerance failure; `.inl tmpp`
is a completed run with the final accepted control points. -/
def krOuterLoop (old : SlicePatch) (u tol : ℚ) (pp : ℤ) :
    ℕ → ℕ → ℤ → ℤ → ℤ → ℤ → (ℤ → List ℚ) → (ℤ → List ℚ) → ((ℤ → List ℚ) ⊕ ℕ)
  | 0, _, _, _, _, _, _, tmpp => .inl tmpp
  | tleft + 1, t, i, j, first, last, temp, tmpp =>
    match krComputeLoop old u pp (t : ℤ) i j 1 (last - (first - 1))
        (fun k =>
          if k = last + 1 - (first - 1) then getSlice old.cps (last + 1)
          else if k = 0 then getSlice old.cps (first - 1)
          else temp k) with
    | (i1, j1, ii1, jj1, temp1) =>
      if distGeTol
          (sumSq
            (if j1 - i1 < (t : ℤ) then vsub (temp1 (ii1 - 1)) (temp1 (jj1 + 1))
             else
               vsub (vsub (getSlice old.cps i1)
                   (vsmul ((u - kAt old.knots i1)
                       / (kAt old.knots (i1 + pp + 1) - kAt old.knots i1))
                     (temp1 (ii1 + 1))))
                 (vsmul (1 - (u - kAt old.knots i1)
                     / (kAt old.knots (i1 + pp + 1) - kAt old.knots i1))
                   (temp1 (ii1 - 1)))))
          tol then .inr t
      else
        match krCopyLoop (t : ℤ) (first - 1) temp1 first last tmpp with
        | (i2, j2, tmpp2) =>
          krOuterLoop old u tol pp tleft (t + 1) i2 j2 (first - 1) (last + 1) temp1 tmpp2

/-- `NURBSPatch::KnotRemove` (`nurbs.cpp:1282-1478`) in the slice
view: find the last index `id` and multiplicity of `knot`, check the
`MFEM_VERIFY` precondition, run the removal loop; a tolerance failure
returns the number of successful removals with the patch untouched
(the `swap` at `nurbs.cpp:1475` is never reached), while a completed
run builds the shrunken patch (`newp`, `newkv`) and installs it.
`none` embeds the fatal `MFEM_VERIFY`/`mfem_error` aborts. -/
def knotRemove (st : SlicePatch) (u : ℚ) (ntimes : ℕ) (tol : ℚ) :
    Option (ℕ × SlicePatch) :=
  let occs := (List.range st.knots.length).filter fun k => st.knots.getD k 0 = u
  match occs.getLast? with
  | none => none
  | some id =>
    if 0 < id ∧ id < st.knots.length - 1 ∧ ntimes ≤ occs.length then
      let pp := st.p
      let r : ℤ := id
      let s : ℤ := occs.length
      let last : ℤ := r - s
      let first : ℤ := r - pp
      match krOuterLoop st u tol pp ntimes 0 first last first last
          (fun _ => []) (fun k => getSlice st.cps k) with
      | .inr t => some (t, st)
      | .inl tmppF =>
        let fout : ℤ := Int.tdiv (2 * r - s - pp) 2
        let ij := (List.range (ntimes - 1)).foldl
          (fun (pr : ℤ × ℤ) k0 =>
            if (k0 + 1) % 2 = 1 then (pr.1 + 1, pr.2) else (pr.1, pr.2 - 1))
          (fout, fout)
        let nd : ℤ := st.cps.length
        let newknots := st.knots.take (id + 1 - ntimes) ++ st.knots.drop (id + 1)
        if newknots.length = st.knots.length - ntimes then
          some (ntimes,
            { p := st.p
              knots := newknots
              cps := (List.range (st.knots.length - st.p - 1 - ntimes)).map fun (m : ℕ) =>
                if ij.2 ≤ (m : ℤ) ∧ (m : ℤ) ≤ ij.2 + nd - ij.1 - 2 then
                  tmppF ((m : ℤ) - ij.2 + ij.1 + 1)
                else if (m : ℤ) < fout then getSlice st.cps (m : ℤ)
                else [] })
        else none
    else none

/-- A failure of `krOuterLoop` reports a step count below
`t + tleft`. -/
theorem krOuterLoop_inr_lt (old : SlicePatch) (u tol : ℚ) (pp : ℤ) :
    ∀ (tleft t : ℕ) (i j first last : ℤ) (temp tmpp : ℤ → List ℚ) (c : ℕ),
      krOuterLoop old u tol pp tleft t i j first last temp tmpp = .inr c →
      c < t + tleft := by
  intro tleft
  induction tleft with
  | zero => intro t i j first last temp tmpp c h; simp [krOuterLoop] at h
  | succ tleft ih =>
    intro t i j first last temp tmpp c h
    simp only [krOuterLoop] at h
    split at h <;> split at h <;>
      first
        | (simp only [Sum.inr.injEq] at h; omega)
        | (have hrec := ih (t + 1) _ _ _ _ _ _ c h; omega)

/-- Case analysis for `KnotRemove`: a non-fatal call either completes
all `ntimes` removals and shrinks both the knot vector and the
control-point net by `ntimes` along the direction, or stops at some
step `t < ntimes` leaving the patch exactly as it was. -/
theorem knotRemove_cases (st : SlicePatch) (u : ℚ) (ntimes : ℕ) (tol : ℚ)
    (res : ℕ × SlicePatch) (h : knotRemove st u ntimes tol = some res) :
    (res.1 = ntimes ∧ res.2.p = st.p ∧
      res.2.knots.length = st.knots.length - ntimes ∧
      res.2.cps.length = st.knots.length - st.p - 1 - ntimes)
    ∨ (res.1 < ntimes ∧ res.2 = st) := by
  rw [knotRemove] at h
  split at h
  · simp at h
  · split at h
    · dsimp only at h
      split at h
      · rename_i t hloop
        obtain rfl := Option.some.inj h
        right
        have hc := krOuterLoop_inr_lt st u tol st.p ntimes 0 _ _ _ _ _ _ t hloop
        exact ⟨by simpa using hc, rfl⟩
      · split at h
        · rename_i hver
          obtain rfl := Option.some.inj h
          left
          refine ⟨rfl, rfl, hver, ?_⟩
          simp
        · simp at h
    · simp at h

/-- `C1`: for every patch (in slice view), interior knot value,
removal count and tolerance for which the `MFEM_VERIFY` precondition
holds (so the call does not abort, `h`), `KnotRemove` either performs
all `ntimes` removals — returning exactly `ntimes` with the patch
shrunk by exactly `ntimes` control points (and knots) along the
direction — or stops at the first step whose discrepancy norm reaches
the tolerance, returning the number `t < ntimes` of successful steps
with the patch untouched, never raising an error. -/
theorem knotRemove_partial_success_contract (st : SlicePatch) (u : ℚ)
    (ntimes : ℕ) (tol : ℚ) (res : ℕ × SlicePatch)
    (h : knotRemove st u ntimes tol = some res) :
    (res.1 = ntimes ∧ res.2.p = st.p ∧
      res.2.knots.length = st.knots.length - ntimes ∧
      res.2.cps.length = st.knots.length - st.p - 1 - ntimes)
    ∨ (res.1 < ntimes ∧ res.2 = st) :=
  knotRemove_cases st u ntimes tol res h

set_option maxRecDepth 100000 in
/-- Witness for `C1`: removing the interior knot `3` once from the
order-1 patch over `[0,0,3,5,5]` with a loose tolerance succeeds and
shrinks the patch from 3 to 2 control points. -/
theorem knotRemove_partial_success_contract_witness :
    ((1, (⟨1, [0, 0, 5, 5], [[0], [2]]⟩ : SlicePatch)).1 = 1 ∧
      (1, (⟨1, [0, 0, 5, 5], [[0], [2]]⟩ : SlicePatch)).2.p
        = (⟨1, [0, 0, 3, 5, 5], [[0], [1], [2]]⟩ : SlicePatch).p ∧
      (1, (⟨1, [0, 0, 5, 5], [[0], [2]]⟩ : SlicePatch)).2.knots.length
        = (⟨1, [0, 0, 3, 5, 5], [[0], [1], [2]]⟩ : SlicePatch).knots.length - 1 ∧
      (1, (⟨1, [0, 0, 5, 5], [[0], [2]]⟩ : SlicePatch)).2.cps.length
        = (⟨1, [0, 0, 3, 5, 5], [[0], [1], [2]]⟩ : SlicePatch).knots.length
          - (⟨1, [0, 0, 3, 5, 5], [[0], [1], [2]]⟩ : SlicePatch).p - 1 - 1)
    ∨ ((1, (⟨1, [0, 0, 5, 5], [[0], [2]]⟩ : SlicePatch)).1 < 1 ∧
      (1, (⟨1, [0, 0, 5, 5], [[0], [2]]⟩ : SlicePatch)).2
        = ⟨1, [0, 0, 3, 5, 5], [[0], [1], [2]]⟩) :=
  knotRemove_partial_success_contract ⟨1, [0, 0, 3, 5, 5], [[0], [1], [2]]⟩ 3 1 1000
    (1, ⟨1, [0, 0, 5, 5], [[0], [2]]⟩)
    (by
      norm_num [knotRemove, krOuterLoop, krComputeLoop, krComputeGo, krCopyLoop,
        krCopyGo, getSlice_neg, getSlice_nil, getSlice_cons_zero, getSlice_cons_pos,
        kAt_neg, kAt_nil, kAt_cons_zero, kAt_cons_pos,
        vsub, vsmul, sumSq, distGeTol, List.filter, List.getLast?]
      norm_num [List.range_succ, getSlice_cons_zero, getSlice_cons_pos,
        getSlice_neg, getSlice_nil])

/-- `C9`: when `KnotRemove` fails partway — returning fewer removals
than requested — the patch's knot vector and control points are
exactly those it had before the call: the early `return t` happens
before the `swap(newpatch)` that installs the replacement, so the
patch is never left half-mutated. -/
theorem knotRemove_failure_leaves_patch_unchanged (st : SlicePatch) (u : ℚ)
    (ntimes : ℕ) (tol : ℚ) (res : ℕ × SlicePatch)
    (h : knotRemove st u ntimes tol = some res) (hlt : res.1 < ntimes) :
    res.2 = st := by
  rcases knotRemove_cases st u ntimes tol res h with ⟨h1, _⟩ | ⟨_, h2⟩
  · omega
  · exact h2

set_option maxRecDepth 100000 in
/-- Witness for `C9`: with control points `[[0],[9],[2]]` the single
removal of knot `3` fails against tolerance `1` (the discrepancy norm
is `39/5`), and the returned patch state is the original one. -/
theorem knotRemove_failure_leaves_patch_unchanged_witness :
    ((0 : ℕ), (⟨1, [0, 0, 3, 5, 5], [[0], [9], [2]]⟩ : SlicePatch)).2
      = ⟨1, [0, 0, 3, 5, 5], [[0], [9], [2]]⟩ :=
  knotRemove_failure_leaves_patch_unchanged ⟨1, [0, 0, 3, 5, 5], [[0], [9], [2]]⟩ 3 1 1
    (0, ⟨1, [0, 0, 3, 5, 5], [[0], [9], [2]]⟩)
    (by
      norm_num [knotRemove, krOuterLoop, krComputeLoop, krComputeGo, krCopyLoop,
        krCopyGo, getSlice_neg, getSlice_nil, getSlice_cons_zero, getSlice_cons_pos,
        kAt_neg, kAt_nil, kAt_cons_zero, kAt_cons_pos,
        vsub, vsmul, sumSq, distGeTol, List.filter, List.getLast?])
    (by norm_num)

set_option maxRecDepth 100000 in
/-- `C8` (evidence of the code bug): the `MFEM_VERIFY` at
`nurbs.cpp:1304` claims "Only interior knots of sufficient
multiplicity may be removed", but the left-endpoint knot value `0` of
the clamped order-1 KnotVector `[0,0,3,5,5]` — which is not an
interior knot — passes the check (its last occurrence has index
`1 > 0`), and the removal algorithm runs instead of aborting,
producing an unclamped knot vector (in the C++ code this run reads
`slice(-1)` and writes `temp` out of bounds). -/
theorem knotRemove_boundary_knot_not_rejected :
    knotRemove ⟨1, [0, 0, 3, 5, 5], [[0], [1], [2]]⟩ 0 1 1
      = some (1, ⟨1, [0, 3, 5, 5], [[1], [2]]⟩) ∧
    List.getD [0, 0, (3:ℚ), 5, 5] 0 0 = 0 := by
  constructor
  · norm_num [knotRemove, krOuterLoop, krComputeLoop, krComputeGo, krCopyLoop,
      krCopyGo, getSlice_neg, getSlice_nil, getSlice_cons_zero, getSlice_cons_pos,
      kAt_neg, kAt_nil, kAt_cons_zero, kAt_cons_pos,
      vsub, vsmul, sumSq, distGeTol, List.filter, List.getLast?]
    have ht : Int.tdiv 1 2 = 0 := by decide
    norm_num [ht, List.range_succ, getSlice_cons_zero, getSlice_cons_pos,
      getSlice_neg, getSlice_nil]
  · norm_num

/-- The inputs `NURBSExtension::GenerateOffsets` (`nurbs.cpp:3428-3518`)
reads from the patch-topology collaborator and the unique KnotVectors:
entity counts, per-edge `KnotVec(e)->GetNE()` / `GetNCP()`, the first
two edges of each face (`GetFaceEdges`), and the direction edges
0, 3, 8 of each element (`GetElementEdges`). -/
structure OffsetsInput where
  dim : ℕ
  nv : ℕ
  ne : ℕ
  nf : ℕ
  np : ℕ
  edgeNE : ℕ → ℤ
  edgeNCP : ℕ → ℤ
  faceEdges : ℕ → ℕ × ℕ
  elemEdges : ℕ → ℕ × ℕ × ℕ

/-- The per-entity "space" (DOF) range sizes of `GenerateOffsets`, in
assignment order — vertices (1 DOF each), then edges
(`GetNCP()-2` interior DOFs), then faces (product of the two edges'
interior counts), then patches (product over the parametric
directions; in 1D the code uses `KnotVec(0)`). -/
def spaceSizes (E : OffsetsInput) : List ℤ :=
  (List.range E.nv).map (fun _ => 1)
  ++ (List.range E.ne).map (fun e => E.edgeNCP e - 2)
  ++ (List.range E.nf).map (fun f =>
      (E.edgeNCP (E.faceEdges f).1 - 2) * (E.edgeNCP (E.faceEdges f).2 - 2))
  ++ (List.range E.np).map (fun q =>
      if E.dim = 1 then E.edgeNCP 0 - 2
      else if E.dim = 2 then
        (E.edgeNCP (E.elemEdges q).1 - 2) * (E.edgeNCP (E.elemEdges q).2.1 - 2)
      else
        (E.edgeNCP (E.elemEdges q).1 - 2) * (E.edgeNCP (E.elemEdges q).2.1 - 2)
          * (E.edgeNCP (E.elemEdges q).2.2 - 2))

/-- The running-counter offset assignment of `GenerateOffsets`: each
entity's offset is the counter before its size is added. -/
def offsetsScan : List ℤ → ℤ → List ℤ
  | [], _ => []
  | s :: rest, c => c :: offsetsScan rest (c + s)

/-- The final counter value (`NumOfDofs`). -/
def totalScan : List ℤ → ℤ → ℤ
  | [], c => c
  | s :: rest, c => totalScan rest (c + s)

/-- `NURBSExtension::GenerateOffsets`, space ("DOF") side: the offsets
`v_spaceOffsets ++ e_spaceOffsets ++ f_spaceOffsets ++ p_spaceOffsets`
in assignment order, and `NumOfDofs`. -/
def generateOffsets (E : OffsetsInput) : List ℤ × ℤ :=
  (offsetsScan (spaceSizes E) 0, totalScan (spaceSizes E) 0)

theorem totalScan_ge (sizes : List ℤ) (hpos : ∀ s ∈ sizes, 0 ≤ s) :
    ∀ c : ℤ, c ≤ totalScan sizes c := by
  induction sizes with
  | nil => intro c; simp [totalScan]
  | cons s rest ih =>
    intro c
    have hs : 0 ≤ s := hpos s (by simp)
    have := ih (fun x hx => hpos x (by simp [hx])) (c + s)
    simp only [totalScan]
    omega

theorem offsetsScan_ge (sizes : List ℤ) (hpos : ∀ s ∈ sizes, 0 ≤ s) :
    ∀ (c : ℤ) (o : ℤ), o ∈ offsetsScan sizes c → c ≤ o := by
  induction sizes with
  | nil => intro c o ho; simp [offsetsScan] at ho
  | cons s rest ih =>
    intro c o ho
    have hs : 0 ≤ s := hpos s (by simp)
    simp only [offsetsScan, List.mem_cons] at ho
    rcases ho with rfl | ho
    · exact le_refl o
    · have := ih (fun x hx => hpos x (by simp [hx])) (c + s) o ho
      omega

/-- Membership characterization of the scanned ranges: `k` lies in
`[c, totalScan sizes c)` iff some `(offset, size)` range contains
it. -/
theorem scan_mem_iff (sizes : List ℤ) (hpos : ∀ s ∈ sizes, 0 ≤ s) :
    ∀ (c k : ℤ),
      (c ≤ k ∧ k < totalScan sizes c) ↔
      ∃ pr ∈ List.zip (offsetsScan sizes c) sizes, pr.1 ≤ k ∧ k < pr.1 + pr.2 := by
  induction sizes with
  | nil =>
    intro c k
    simp [offsetsScan, totalScan]
  | cons s rest ih =>
    intro c k
    have hs : 0 ≤ s := hpos s (by simp)
    have hrest : ∀ x ∈ rest, 0 ≤ x := fun x hx => hpos x (by simp [hx])
    have htot := totalScan_ge rest hrest (c + s)
    simp only [offsetsScan, totalScan, List.zip_cons_cons, List.mem_cons]
    constructor
    · rintro ⟨hck, hk⟩
      by_cases hlt : k < c + s
      · exact ⟨(c, s), Or.inl rfl, hck, by omega⟩
      · obtain ⟨pr, hpr, h1, h2⟩ := (ih hrest (c + s) k).mp ⟨by omega, hk⟩
        exact ⟨pr, Or.inr hpr, h1, h2⟩
    · rintro ⟨pr, hpr, h1, h2⟩
      rcases hpr with rfl | hpr
      · simp only at h1 h2
        exact ⟨h1, by omega⟩
      · obtain ⟨hck, hk⟩ := (ih hrest (c + s) k).mpr ⟨pr, hpr, h1, h2⟩
        exact ⟨by omega, hk⟩

/-- The scanned ranges are ordered: each range ends no later than any
later range begins (pairwise disjointness). -/
theorem scan_pairwise (sizes : List ℤ) (hpos : ∀ s ∈ sizes, 0 ≤ s) :
    ∀ c : ℤ,
      (List.zip (offsetsScan sizes c) sizes).Pairwise
        (fun a b => a.1 + a.2 ≤ b.1) := by
  induction sizes with
  | nil => intro c; simp [offsetsScan]
  | cons s rest ih =>
    intro c
    have hrest : ∀ x ∈ rest, 0 ≤ x := fun x hx => hpos x (by simp [hx])
    simp only [offsetsScan, List.zip_cons_cons, List.pairwise_cons]
    refine ⟨?_, ih hrest (c + s)⟩
    intro b hb
    have hmem := List.of_mem_zip hb
    have := offsetsScan_ge rest hrest (c + s) b.1 hmem.1
    simpa using this

/-- `C5`: `GenerateOffsets` assigns the "space" index ranges to
vertices, then edges, then faces, then patches, sized 1 per vertex,
`GetNCP()-2` per edge, the product of the two face edges' interior
counts per face and the product over all directions per patch (the
list `spaceSizes`); whenever all these knot vectors have at least two
control points, the ranges are pairwise disjoint and exactly tile
`[0, NumOfDofs)`: an index `k` is in `[0, NumOfDofs)` iff some
entity's range contains it. -/
theorem generateOffsets_tiling (E : OffsetsInput) (k : ℤ)
    (hncp : ∀ e : ℕ, 2 ≤ E.edgeNCP e) :
    ((0 ≤ k ∧ k < (generateOffsets E).2) ↔
      ∃ pr ∈ List.zip (generateOffsets E).1 (spaceSizes E),
        pr.1 ≤ k ∧ k < pr.1 + pr.2) ∧
    (List.zip (generateOffsets E).1 (spaceSizes E)).Pairwise
      (fun a b => a.1 + a.2 ≤ b.1) := by
  have hpos : ∀ s ∈ spaceSizes E, 0 ≤ s := by
    intro s hs
    unfold spaceSizes at hs
    simp only [List.mem_append, List.mem_map, List.mem_range] at hs
    rcases hs with ((⟨_, _, rfl⟩ | ⟨e, _, rfl⟩) | ⟨f, _, rfl⟩) | ⟨q, _, rfl⟩
    · omega
    · have := hncp e; omega
    · have h1 := hncp (E.faceEdges f).1
      have h2 := hncp (E.faceEdges f).2
      exact mul_nonneg (by omega) (by omega)
    · split
      · have := hncp 0; omega
      · split
        · have h1 := hncp (E.elemEdges q).1
          have h2 := hncp (E.elemEdges q).2.1
          exact mul_nonneg (by omega) (by omega)
        · have h1 := hncp (E.elemEdges q).1
          have h2 := hncp (E.elemEdges q).2.1
          have h3 := hncp (E.elemEdges q).2.2
          exact mul_nonneg (mul_nonneg (by omega) (by omega)) (by omega)
  exact ⟨scan_mem_iff (spaceSizes E) hpos 0 k, scan_pairwise (spaceSizes E) hpos 0⟩

/-- Witness for `C5`: a single 2D patch with four vertices and four
edges, each knot vector with 3 control points (so 1 interior DOF per
edge and 1 interior patch DOF): 9 DOFs tile `[0, 9)`; the index `k = 5`
falls in exactly the edge-1 range. -/
theorem generateOffsets_tiling_witness :
    ((0 ≤ (5:ℤ) ∧ (5:ℤ) <
        (generateOffsets ⟨2, 4, 4, 0, 1, fun _ => 2, fun _ => 3,
            fun _ => (0, 1), fun _ => (0, 1, 0)⟩).2) ↔
      ∃ pr ∈ List.zip
          (generateOffsets ⟨2, 4, 4, 0, 1, fun _ => 2, fun _ => 3,
              fun _ => (0, 1), fun _ => (0, 1, 0)⟩).1
          (spaceSizes ⟨2, 4, 4, 0, 1, fun _ => 2, fun _ => 3,
              fun _ => (0, 1), fun _ => (0, 1, 0)⟩),
        pr.1 ≤ (5:ℤ) ∧ (5:ℤ) < pr.1 + pr.2) ∧
    (List.zip
        (generateOffsets ⟨2, 4, 4, 0, 1, fun _ => 2, fun _ => 3,
            fun _ => (0, 1), fun _ => (0, 1, 0)⟩).1
        (spaceSizes ⟨2, 4, 4, 0, 1, fun _ => 2, fun _ => 3,
            fun _ => (0, 1), fun _ => (0, 1, 0)⟩)).Pairwise
      (fun a b => a.1 + a.2 ≤ b.1) :=
  generateOffsets_tiling _ 5 (fun _ => by norm_num)

/-- The space kind of a `NURBSExtension` (`Mode` in `nurbs.hpp`):
standard (H1), H(div), or H(curl). -/
inductive NMode
  | standard
  | hdiv
  | hcurl
  deriving DecidableEq, Repr

/-- The boundary-element traversal shared by the
`Generate*BdrElementDofTable` routines: walk the (already filtered)
boundary elements of one boundary patch, advancing the global counter
`gbe` per element, and emit connection targets only for active
boundary elements. -/
def belLoop {α : Type} (act : ℕ → Bool) (emit : α → List ℤ) : List α → ℕ → List ℤ
  | [], _ => []
  | e :: rest, gbe => (if act gbe then emit e else []) ++ belLoop act emit rest (gbe + 1)

/-- Per-boundary-patch data read by `Generate2DBdrElementDofTable`
(`nurbs.cpp:4122-4131`): `kv[0]->GetNKS()`, `kv[0]->GetOrder()`,
`kv[0]->isElement`, the orientation `okv[0]` and `nx = p2g.nx()`. -/
structure BdrPatch2D where
  nks0 : ℕ
  ord0 : ℕ
  isElem0 : ℕ → Bool
  okv0 : ℤ
  nx : ℤ

/-- The body of the `b` loop of
`NURBSExtension::Generate2DBdrElementDofTable` (`nurbs.cpp:4122-4167`)
for one boundary patch with face index `fn`
(`GetBdrElementFaceIndex(b)`), producing the connection targets
appended to `bel_dof_list`; `dm` composes `DofMap` with `p2g`. -/
def gen2DBdrPatchDofs (mode : NMode) (maxOrder fn : ℕ) (P : BdrPatch2D)
    (act : ℕ → Bool) (gbe0 : ℕ) (dm : ℤ → ℤ) : List ℤ :=
  let add_dofs : Bool :=
    if mode = NMode.hdiv then (if P.ord0 = maxOrder then false else true)
    else if mode = NMode.hcurl then (if P.ord0 = maxOrder then false else true)
    else true
  let s : ℤ := if mode = NMode.hdiv then (if fn = 0 ∨ fn = 2 then -1 else 1) else 1
  belLoop act
    (fun (i : ℕ) =>
      if add_dofs then
        (List.range (P.ord0 + 1)).map fun ii =>
          if s = -1 then -1 - dm (if 0 ≤ P.okv0 then (i : ℤ) + ii else P.nx - i - ii)
          else dm (if 0 ≤ P.okv0 then (i : ℤ) + ii else P.nx - i - ii)
      else [])
    ((List.range P.nks0).filter P.isElem0) gbe0

/-- Per-boundary-patch data read by `Generate3DBdrElementDofTable`
(`nurbs.cpp:4185-4195`). -/
structure BdrPatch3D where
  nks0 : ℕ
  ord0 : ℕ
  isElem0 : ℕ → Bool
  nks1 : ℕ
  ord1 : ℕ
  isElem1 : ℕ → Bool
  okv0 : ℤ
  okv1 : ℤ
  nx : ℤ
  ny : ℤ

/-- The body of the `b` loop of
`NURBSExtension::Generate3DBdrElementDofTable` (`nurbs.cpp:4185-4250`)
for one boundary patch with face index `fn`: H(div) omits the patch
unless `ord0 == ord1` and flips faces 4, 1, 0; H(curl) omits it when
`ord0 == ord1`; the `j`-outer/`i`-inner element walk emits the
`(ord1+1)×(ord0+1)` targets per active element. -/
def gen3DBdrPatchDofs (mode : NMode) (fn : ℕ) (P : BdrPatch3D)
    (act : ℕ → Bool) (gbe0 : ℕ) (dm : ℤ → ℤ → ℤ) : List ℤ :=
  let add_dofs : Bool :=
    if mode = NMode.hdiv then (if P.ord0 = P.ord1 then true else false)
    else if mode = NMode.hcurl then (if P.ord0 = P.ord1 then false else true)
    else true
  let s : ℤ := if mode = NMode.hdiv then (if fn = 4 ∨ fn = 1 ∨ fn = 0 then -1 else 1)
    else 1
  belLoop act
    (fun e : ℕ × ℕ =>
      if add_dofs then
        (List.range (P.ord1 + 1)).flatMap fun jj =>
          (List.range (P.ord0 + 1)).map fun ii =>
            if s = -1 then
              -1 - dm (if 0 ≤ P.okv0 then (e.2 : ℤ) + ii else P.nx - e.2 - ii)
                (if 0 ≤ P.okv1 then (e.1 : ℤ) + jj else P.ny - e.1 - jj)
            else
              dm (if 0 ≤ P.okv0 then (e.2 : ℤ) + ii else P.nx - e.2 - ii)
                (if 0 ≤ P.okv1 then (e.1 : ℤ) + jj else P.ny - e.1 - jj)
      else [])
    (((List.range P.nks1).filter P.isElem1).flatMap fun j =>
      ((List.range P.nks0).filter P.isElem0).map fun i => (j, i))
    gbe0

theorem belLoop_emit_nil {α : Type} (act : ℕ → Bool) :
    ∀ (l : List α) (gbe : ℕ), belLoop act (fun _ => ([] : List ℤ)) l gbe = [] := by
  intro l
  induction l with
  | nil => intro gbe; rfl
  | cons e rest ih =>
    intro gbe
    simp [belLoop, ih]

theorem belLoop_mem {α : Type} (act : ℕ → Bool) (emit : α → List ℤ) :
    ∀ (l : List α) (gbe : ℕ) (x : ℤ), x ∈ belLoop act emit l gbe →
      ∃ e ∈ l, x ∈ emit e := by
  intro l
  induction l with
  | nil => intro gbe x hx; simp [belLoop] at hx
  | cons e rest ih =>
    intro gbe x hx
    simp only [belLoop, List.mem_append] at hx
    rcases hx with hx | hx
    · rcases Decidable.em (act gbe = true) with ha | ha
      · rw [if_pos ha] at hx
        exact ⟨e, by simp, hx⟩
      · rw [if_neg ha] at hx
        simp at hx
    · obtain ⟨e', he', hxe⟩ := ih (gbe + 1) x hx
      exact ⟨e', by simp [he'], hxe⟩

/-- `C6` counterexample: in 3D H(div) mode, a boundary patch whose two
surface orders both equal the global maximum order (`2`) is *not*
omitted — the claim demands that faces of globally-maximal order be
dropped, but `Generate3DBdrElementDofTable` keeps a face exactly when
`ord0 == ord1`: here a single active element emits all nine plain
(positive, `fn = 3` is not sign-flipped) connection targets. -/
theorem gen3DBdrDofs_hdiv_max_order_not_omitted :
    gen3DBdrPatchDofs NMode.hdiv 3
        ⟨1, 2, (fun _ => true), 1, 2, (fun _ => true), 1, 1, 10, 10⟩
        (fun _ => true) 0 (fun i j => i + 10 * j)
      = [0, 1, 2, 10, 11, 12, 20, 21, 22] ∧
    ([0, 1, 2, 10, 11, 12, 20, 21, 22] : List ℤ) ≠ [] := by
  constructor
  · decide
  · decide

/-- `C6` amended: in the boundary DOF tables, per boundary patch:
in H(div) mode, 2D omits the patch when its edge order equals the
global maximum order and encodes faces 0 and 2 as `-1-index`, while 3D
omits the patch whenever the two surface orders *differ* (the global
maximum plays no role) and encodes faces 0, 1 and 4 as `-1-index`; in
H(curl) mode, 2D omits the patch when its order equals the global
maximum and 3D omits it when the two surface orders are *equal* (no
strict-exceeds test), and no sign encoding is applied; every included
DOF is either the plain `DofMap(p2g(..))` index, or its `-1-index`
encoding exactly on the H(div) negative faces. -/
theorem bdrDofTable_modes_amended :
    (∀ (mode : NMode) (maxOrder fn : ℕ) (P : BdrPatch2D) (act : ℕ → Bool)
      (gbe0 : ℕ) (dm : ℤ → ℤ),
      ((mode = NMode.hdiv ∨ mode = NMode.hcurl) → P.ord0 = maxOrder →
        gen2DBdrPatchDofs mode maxOrder fn P act gbe0 dm = []) ∧
      (∀ x ∈ gen2DBdrPatchDofs mode maxOrder fn P act gbe0 dm,
        ∃ idx, x = if mode = NMode.hdiv ∧ (fn = 0 ∨ fn = 2) then -1 - dm idx
          else dm idx)) ∧
    (∀ (mode : NMode) (fn : ℕ) (P : BdrPatch3D) (act : ℕ → Bool)
      (gbe0 : ℕ) (dm : ℤ → ℤ → ℤ),
      (mode = NMode.hdiv → P.ord0 ≠ P.ord1 →
        gen3DBdrPatchDofs mode fn P act gbe0 dm = []) ∧
      (mode = NMode.hcurl → P.ord0 = P.ord1 →
        gen3DBdrPatchDofs mode fn P act gbe0 dm = []) ∧
      (∀ x ∈ gen3DBdrPatchDofs mode fn P act gbe0 dm,
        ∃ i j, x = if mode = NMode.hdiv ∧ (fn = 4 ∨ fn = 1 ∨ fn = 0) then
            -1 - dm i j
          else dm i j)) := by
  constructor
  · intro mode maxOrder fn P act gbe0 dm
    constructor
    · intro hm hord
      unfold gen2DBdrPatchDofs
      rcases hm with rfl | rfl
      · simp only [if_pos rfl, if_pos hord]
        exact belLoop_emit_nil act _ gbe0
      · have hne : NMode.hcurl ≠ NMode.hdiv := by decide
        simp only [if_neg hne, if_pos rfl, if_pos hord]
        exact belLoop_emit_nil act _ gbe0
    · intro x hx
      unfold gen2DBdrPatchDofs at hx
      obtain ⟨e, _, hxe⟩ := belLoop_mem _ _ _ _ _ hx
      by_cases hadd : (if mode = NMode.hdiv then (if P.ord0 = maxOrder then false else true)
          else if mode = NMode.hcurl then (if P.ord0 = maxOrder then false else true)
          else true) = true
      · rw [if_pos hadd] at hxe
        simp only [List.mem_map, List.mem_range] at hxe
        obtain ⟨ii, _, rfl⟩ := hxe
        refine ⟨if 0 ≤ P.okv0 then (e : ℤ) + ii else P.nx - e - ii, ?_⟩
        rcases mode with _ | _ | _
        · have h1 : NMode.standard ≠ NMode.hdiv := by decide
          simp [h1]
        · by_cases hfn : fn = 0 ∨ fn = 2
          · simp [hfn]
          · simp [hfn]
        · have h1 : NMode.hcurl ≠ NMode.hdiv := by decide
          simp [h1]
      · rw [if_neg hadd] at hxe
        simp at hxe
  · intro mode fn P act gbe0 dm
    refine ⟨?_, ?_, ?_⟩
    · intro hm hord
      subst hm
      unfold gen3DBdrPatchDofs
      simp only [if_pos rfl, if_neg hord]
      exact belLoop_emit_nil act _ gbe0
    · intro hm hord
      subst hm
      unfold gen3DBdrPatchDofs
      have hne : NMode.hcurl ≠ NMode.hdiv := by decide
      simp only [if_neg hne, if_pos rfl, if_pos hord]
      exact belLoop_emit_nil act _ gbe0
    · intro x hx
      unfold gen3DBdrPatchDofs at hx
      obtain ⟨e, _, hxe⟩ := belLoop_mem _ _ _ _ _ hx
      by_cases hadd : (if mode = NMode.hdiv then (if P.ord0 = P.ord1 then true else false)
          else if mode = NMode.hcurl then (if P.ord0 = P.ord1 then false else true)
          else true) = true
      · rw [if_pos hadd] at hxe
        simp only [List.mem_flatMap, List.mem_map, List.mem_range] at hxe
        obtain ⟨jj, _, ii, _, rfl⟩ := hxe
        refine ⟨if 0 ≤ P.okv0 then (e.2 : ℤ) + ii else P.nx - e.2 - ii,
          if 0 ≤ P.okv1 then (e.1 : ℤ) + jj else P.ny - e.1 - jj, ?_⟩
        rcases mode with _ | _ | _
        · have h1 : NMode.standard ≠ NMode.hdiv := by decide
          simp [h1]
        · by_cases hfn : fn = 4 ∨ fn = 1 ∨ fn = 0
          · simp [hfn]
          · simp [hfn]
        · have h1 : NMode.hcurl ≠ NMode.hdiv := by decide
          simp [h1]
      · rw [if_neg hadd] at hxe
        simp at hxe

/-- Witness for the amended `C6`: a 2D H(div) boundary patch whose
order equals the global maximum order is omitted entirely. -/
theorem bdrDofTable_modes_amended_witness :
    gen2DBdrPatchDofs NMode.hdiv 2 0 ⟨1, 2, (fun _ => true), 1, 5⟩
      (fun _ => true) 0 (fun k => k) = [] :=
  (bdrDofTable_modes_amended.1 NMode.hdiv 2 0 ⟨1, 2, (fun _ => true), 1, 5⟩
    (fun _ => true) 0 (fun k => k)).1 (Or.inl rfl) rfl

/-- `KnotVector::Flip` (`nurbs.cpp:289-300`): with
`apb = knot(0) + knot(Size()-1)`, the loop over `i = 1..ns`
(`ns = (NCP-Order)/2`) maps every interior index
`k ∈ [Order+1, NCP-1]` to `apb - knot(Order+NCP-k)` and leaves the
clamped ends untouched. -/
def flipKnots (order ncp : ℕ) (knots : List ℚ) : List ℚ :=
  (List.range knots.length).map fun k =>
    if order + 1 ≤ k ∧ k ≤ ncp - 1 then
      (knots.getD 0 0 + knots.getD (knots.length - 1) 0) - knots.getD (order + ncp - k) 0
    else knots.getD k 0

/-- `KnotVector::Flip` on the embedded structure (order and
control-point count are unchanged). -/
def kvFlip (kv : KnotVec) : KnotVec :=
  { kv with knots := flipKnots kv.order kv.ncp kv.knots }

theorem flipKnots_length (order ncp : ℕ) (knots : List ℚ) :
    (flipKnots order ncp knots).length = knots.length := by
  simp [flipKnots]

theorem flipKnots_getD (order ncp : ℕ) (knots : List ℚ) (k : ℕ)
    (hk : k < knots.length) :
    (flipKnots order ncp knots).getD k 0 =
      if order + 1 ≤ k ∧ k ≤ ncp - 1 then
        (knots.getD 0 0 + knots.getD (knots.length - 1) 0)
          - knots.getD (order + ncp - k) 0
      else knots.getD k 0 := by
  unfold flipKnots
  rw [List.getD_eq_getElem?_getD, List.getElem?_eq_getElem (by simpa using hk)]
  simp

/-- In exact arithmetic `Flip` is an involution on well-formed knot
vectors (`Size() = NCP + Order + 1`). -/
theorem kvFlip_involution (kv : KnotVec)
    (hlen : kv.knots.length = kv.ncp + kv.order + 1) :
    kvFlip (kvFlip kv) = kv := by
  obtain ⟨p, ncp, knots⟩ := kv
  simp only [kvFlip] at *
  simp only [KnotVec.mk.injEq, true_and]
  have hflen : (flipKnots p ncp knots).length = knots.length := flipKnots_length p ncp knots
  have hlen' : knots.length = ncp + p + 1 := by simpa using hlen
  have h0 : (flipKnots p ncp knots).getD 0 0 = knots.getD 0 0 := by
    rw [flipKnots_getD p ncp knots 0 (by omega)]
    simp
  have hlast : (flipKnots p ncp knots).getD (knots.length - 1) 0
      = knots.getD (knots.length - 1) 0 := by
    rw [flipKnots_getD p ncp knots (knots.length - 1) (by omega)]
    rw [if_neg (by omega)]
  apply List.ext_getElem
  · simp [flipKnots_length]
  · intro k h1 h2
    have hk : k < knots.length := h2
    have hgd : ∀ (l : List ℚ) (hkl : k < l.length), l[k] = l.getD k 0 := by
      intro l hkl
      rw [List.getD_eq_getElem?_getD, List.getElem?_eq_getElem hkl]
      rfl
    rw [hgd _ (by simpa [flipKnots_length] using hk), hgd _ hk]
    rw [flipKnots_getD p ncp _ k (by simpa [flipKnots_length] using hk)]
    rw [hflen, h0, hlast]
    by_cases hreg : p + 1 ≤ k ∧ k ≤ ncp - 1
    · rw [if_pos hreg]
      have hmir : p + 1 ≤ p + ncp - k ∧ p + ncp - k ≤ ncp - 1 := by omega
      rw [flipKnots_getD p ncp knots (p + ncp - k) (by omega), if_pos hmir]
      have : p + ncp - (p + ncp - k) = k := by omega
      rw [this]
      ring
    · rw [if_neg hreg]
      rw [flipKnots_getD p ncp knots k hk, if_neg hreg]

/-- The per-patch, per-direction data of the `NURBSExtension` KnotVector
reconciliation: the number of patches and parametric dimensions, the
topology-edge index of each (patch, direction) pair
(`edges[e[d]]` with `e = {0}`, `{0,1}` or `{0,3,8}`), the orientation
from `CheckKVDirection`, and the unique (`knotVectors`, via
`KnotVec(iun)`) and comprehensive (`knotVectorsCompr`) sets. -/
structure KVExtState where
  np : ℕ
  dim : ℕ
  elemEdges : ℕ → ℕ → ℕ
  kvdir : ℕ → ℕ → ℤ
  unique : ℕ → KnotVec
  compr : ℕ → KnotVec

/-- `NURBSExtension::CreateComprehensiveKV` (`nurbs.cpp:3121-3169`):
in 1D the comprehensive set is a copy of the unique set; otherwise
`knotVectorsCompr[dim*p+d]` is a copy of `KnotVec(edges[e[d]])`,
flipped when `kvdir[d] == -1`. -/
def createComprehensiveKV (S : KVExtState) : KVExtState :=
  if S.dim = 1 then { S with compr := S.unique }
  else
    { S with compr := fun icomp =>
        if S.kvdir (icomp / S.dim) (icomp % S.dim) = -1 then
          kvFlip (S.unique (S.elemEdges (icomp / S.dim) (icomp % S.dim)))
        else S.unique (S.elemEdges (icomp / S.dim) (icomp % S.dim)) }

/-- The per-(patch, direction) body of `NURBSExtension::ConsistentKVSets`
(`nurbs.cpp:3286-3310`): compare orders, then compare via
`KnotVector::Difference` and report disagreement when the difference
is non-empty (a `Difference` whose C++ run would write out of bounds
still produces a size-`s > 0` result and thus also reports
disagreement). -/
def kvAgrees (u c : KnotVec) : Bool :=
  if u.order ≠ c.order then false
  else
    match KVDifference u c with
    | .ok diff => decide (diff.length = 0)
    | .error _ => false

/-- `NURBSExtension::ConsistentKVSets` (`nurbs.cpp:3249-3314`): fatal
for 1D; otherwise, for every patch and local direction, the unique
KnotVector of the topology edge must "agree" with the comprehensive
one, un-flipped when `kvdir[d] == -1`. -/
def consistentKVSets (S : KVExtState) : Option Bool :=
  if S.dim ≤ 1 then none
  else
    some ((List.range S.np).all fun q =>
      (List.range S.dim).all fun d =>
        kvAgrees (S.unique (S.elemEdges q d))
          (if S.kvdir q d = -1 then kvFlip (S.compr (S.dim * q + d))
           else S.compr (S.dim * q + d)))

/-- For `small` no longer than `large`, the emptiness check on a
`differenceCore` result holds exactly when the two lengths agree. -/
theorem differenceCore_empty_iff (small large : List ℚ)
    (hle : small.length ≤ large.length) :
    (match differenceCore small large with
     | .ok d => decide (d.length = 0)
     | .error _ => false) = true ↔ large.length = small.length := by
  unfold differenceCore
  by_cases heq : large.length = small.length
  · simp [heq]
  · rw [if_neg heq]
    rcases hscan : diffScan small large with e | d
    · simp [heq]
    · by_cases hdl : d.length = large.length - small.length
      · simp only [if_pos hdl, decide_eq_true_eq]
        constructor
        · intro h0
          omega
        · intro h
          exact absurd h heq
      · simp [hdl, heq]

/-- `kvAgrees` is exactly order agreement plus knot-count agreement:
equal-length knot sequences are never compared elementwise. -/
theorem kvAgrees_iff (u c : KnotVec) :
    kvAgrees u c = true ↔
      u.order = c.order ∧ u.knots.length = c.knots.length := by
  unfold kvAgrees
  by_cases horder : u.order = c.order
  · rw [if_neg (by simpa using horder)]
    unfold KVDifference
    rw [if_neg (by simpa using horder)]
    by_cases hlt : c.size < u.size
    · rw [if_pos hlt,
        differenceCore_empty_iff c.knots u.knots (le_of_lt hlt)]
      constructor
      · intro h
        exact ⟨horder, h⟩
      · rintro ⟨_, h⟩
        exact h
    · rw [if_neg hlt,
        differenceCore_empty_iff u.knots c.knots (by simpa [KnotVec.size] using hlt)]
      constructor
      · intro h
        exact ⟨horder, h.symm⟩
      · rintro ⟨_, h⟩
        exact h.symm
  · rw [if_pos (by simpa using horder)]
    simp only [Bool.false_eq_true, false_iff]
    intro ⟨h, _⟩
    exact absurd h horder

/-- `C7` counterexample: a two-patch-direction extension whose
comprehensive KnotVector has the *same order and length* but
*different knots* (`4` vs `3`) than the unique one still makes
`ConsistentKVSets` return `true` — the claimed "identical knots"
characterization is false, because `Difference` returns empty for
equal-length inputs without comparing values. -/
theorem consistentKVSets_counterexample :
    consistentKVSets
      { np := 1, dim := 2, elemEdges := fun _ d => d, kvdir := fun _ _ => 1,
        unique := fun _ => ⟨1, 3, [0, 0, 3, 5, 5]⟩,
        compr := fun _ => ⟨1, 3, [0, 0, 4, 5, 5]⟩ } = some true ∧
    ((⟨1, 3, [0, 0, 4, 5, 5]⟩ : KnotVec).knots
      ≠ (⟨1, 3, [0, 0, 3, 5, 5]⟩ : KnotVec).knots) := by
  constructor
  · decide
  · decide

/-- `C7` amended: (i) after `CreateComprehensiveKV` completes, the
comprehensive KnotVector of each (patch, direction), un-flipped when
its edge orientation is reversed, is *exactly* the unique KnotVector
of the corresponding topology edge; (ii) `ConsistentKVSets` returns
true exactly when every comprehensive KnotVector has the same order
and the same knot count as its unique KnotVector — equal-length knot
sequences are never compared elementwise, so completion of
`UpdateUniqueKV` guarantees only order/count agreement, not knot
equality; (iii) calling `ConsistentKVSets` on a 1D extension is a
fatal precondition violation. -/
theorem consistentKVSets_amended :
    (∀ (S : KVExtState) (q d : ℕ), 2 ≤ S.dim → d < S.dim →
      (S.unique (S.elemEdges q d)).knots.length
        = (S.unique (S.elemEdges q d)).ncp + (S.unique (S.elemEdges q d)).order + 1 →
      (if S.kvdir q d = -1 then
          kvFlip ((createComprehensiveKV S).compr (S.dim * q + d))
        else (createComprehensiveKV S).compr (S.dim * q + d))
        = S.unique (S.elemEdges q d)) ∧
    (∀ S : KVExtState, 2 ≤ S.dim →
      (consistentKVSets S = some true ↔
        ∀ q < S.np, ∀ d < S.dim,
          (S.unique (S.elemEdges q d)).order = (S.compr (S.dim * q + d)).order ∧
          (S.unique (S.elemEdges q d)).knots.length
            = (S.compr (S.dim * q + d)).knots.length)) ∧
    (∀ S : KVExtState, S.dim ≤ 1 → consistentKVSets S = none) := by
  refine ⟨?_, ?_, ?_⟩
  · intro S q d hdim hd hlen
    have hq : (S.dim * q + d) / S.dim = q := by
      rw [Nat.mul_add_div (by omega), Nat.div_eq_of_lt hd]
      omega
    have hd' : (S.dim * q + d) % S.dim = d := by
      rw [Nat.mul_add_mod, Nat.mod_eq_of_lt hd]
    unfold createComprehensiveKV
    rw [if_neg (show ¬ S.dim = 1 by omega)]
    simp only [hq, hd']
    by_cases hflip : S.kvdir q d = -1
    · rw [if_pos hflip, if_pos hflip]
      exact kvFlip_involution _ hlen
    · rw [if_neg hflip, if_neg hflip]
  · intro S hdim
    have key : ∀ q d : ℕ,
        (kvAgrees (S.unique (S.elemEdges q d))
          (if S.kvdir q d = -1 then kvFlip (S.compr (S.dim * q + d))
           else S.compr (S.dim * q + d)) = true)
        ↔ ((S.unique (S.elemEdges q d)).order = (S.compr (S.dim * q + d)).order ∧
           (S.unique (S.elemEdges q d)).knots.length
             = (S.compr (S.dim * q + d)).knots.length) := by
      intro q d
      by_cases hflip : S.kvdir q d = -1
      · rw [if_pos hflip, kvAgrees_iff]
        constructor
        · rintro ⟨ho, hl⟩
          exact ⟨by simpa [kvFlip] using ho,
            by simpa [kvFlip, flipKnots_length] using hl⟩
        · rintro ⟨ho, hl⟩
          exact ⟨by simpa [kvFlip] using ho,
            by simpa [kvFlip, flipKnots_length] using hl⟩
      · rw [if_neg hflip, kvAgrees_iff]
    unfold consistentKVSets
    rw [if_neg (by omega)]
    simp only [Option.some.injEq, List.all_eq_true, List.mem_range]
    constructor
    · intro h q hq d hd
      exact (key q d).mp (h q hq d hd)
    · intro h q hq d hd
      exact (key q d).mpr (h q hq d hd)
  · intro S hdim
    unfold consistentKVSets
    rw [if_pos hdim]

/-- Witness for the amended `C7`: a 2D single-patch extension whose
comprehensive set agrees with the unique set in order and knot count
makes `ConsistentKVSets` return true. -/
theorem consistentKVSets_amended_witness :
    consistentKVSets
      { np := 1, dim := 2, elemEdges := fun _ d => d, kvdir := fun _ _ => 1,
        unique := fun _ => ⟨1, 3, [0, 0, 3, 5, 5]⟩,
        compr := fun _ => ⟨1, 3, [0, 0, 3, 5, 5]⟩ } = some true :=
  (consistentKVSets_amended.2.1 _ (by norm_num)).mpr
    (fun _ _ _ _ => ⟨rfl, rfl⟩)

/-- The sorted merge of two non-decreasing knot lists: the knot
sequence produced by inserting the knots `r` into the knot vector `l`
(what `NURBSPatch::KnotInsert` does to the knot array). -/
def mergeSorted : List ℚ → List ℚ → List ℚ
  | [], r => r
  | l, [] => l
  | x :: xs, z :: zs =>
    if x ≤ z then x :: mergeSorted xs (z :: zs) else z :: mergeSorted (x :: xs) zs
termination_by l r => l.length + r.length

theorem machEps_pos : 0 < machEps := by norm_num [machEps]

theorem mergeSorted_nil_right (l : List ℚ) : mergeSorted l [] = l := by
  cases l <;> simp [mergeSorted]

/-- `mergeSorted` is a permutation of the concatenation. -/
theorem mergeSorted_perm : ∀ l r : List ℚ, (mergeSorted l r).Perm (l ++ r)
  | [], r => by simp [mergeSorted]
  | x :: xs, [] => by simp [mergeSorted]
  | x :: xs, z :: zs => by
    rw [mergeSorted]
    by_cases hxz : x ≤ z
    · rw [if_pos hxz]
      exact (mergeSorted_perm xs (z :: zs)).cons x
    · rw [if_neg hxz]
      refine ((mergeSorted_perm (x :: xs) zs).cons z).trans ?_
      have h1 : (z :: (x :: xs) ++ zs).Perm ((x :: xs) ++ z :: zs) := by
        simpa using (@List.perm_middle ℚ z (x :: xs) zs).symm
      simpa using h1
termination_by l r => l.length + r.length

/-- Elements of a non-decreasing list are bounded by its last
element. -/
theorem sorted_le_getLast :
    ∀ (l : List ℚ), l.Sorted (· ≤ ·) → ∀ z ∈ l, ∀ v, l.getLast? = some v → z ≤ v := by
  intro l
  induction l with
  | nil => intro _ z hz; simp at hz
  | cons a l ih =>
    intro hs z hz v hv
    rcases l with _ | ⟨b, l'⟩
    · simp at hz hv
      exact le_of_eq (by rw [hz, hv])
    · rw [List.getLast?_cons_cons] at hv
      have hs' : (b :: l').Sorted (· ≤ ·) := (List.sorted_cons.mp hs).2
      rcases List.mem_cons.mp hz with rfl | hz'
      · have hvmem : v ∈ b :: l' := by
          obtain ⟨hne, hveq⟩ := List.mem_getLast?_eq_getLast hv
          rw [hveq]
          exact List.getLast_mem hne
        exact (List.sorted_cons.mp hs).1 v hvmem
      · exact ih hs' z hz' v hv

/-- Correctness of the `Difference` scan loop on well-separated
nested inputs: when the larger list is sorted, the smaller is a
sublist of it, any two values from the two lists are either equal or
at least `2*machEps` apart, the smaller exhausts only together with
the larger, and the last value occurs no more often in the larger
than in the smaller — then the scan succeeds, its result is a
(sorted) sublist of the larger, and merging it back into the smaller
reproduces the larger exactly. -/
theorem diffScan_spec :
    ∀ (large small : List ℚ),
      large.Sorted (· ≤ ·) → List.Sublist small large →
      (∀ x ∈ small, ∀ y ∈ large, x = y ∨ 2 * machEps ≤ |x - y|) →
      (small = [] → large = []) →
      (∀ v, small.getLast? = some v →
        large.getLast? = some v ∧ large.count v ≤ small.count v) →
      ∃ d, diffScan small large = .ok d ∧ List.Sublist d large ∧
        mergeSorted small d = large := by
  intro large
  induction large with
  | nil =>
    intro small _ hsub _ _ _
    obtain rfl := List.sublist_nil.mp hsub
    exact ⟨[], rfl, List.Sublist.refl [], mergeSorted_nil_right []⟩
  | cons y ys ih =>
    intro small hsort hsub hsep hne hlast
    have hsort' : ys.Sorted (· ≤ ·) := (List.sorted_cons.mp hsort).2
    have hhead : ∀ z ∈ ys, y ≤ z := (List.sorted_cons.mp hsort).1
    rcases small with _ | ⟨x, xs⟩
    · exact absurd (hne rfl) (by simp)
    · by_cases hxy : x = y
      · subst hxy
        have habs : |x - x| < 2 * machEps := by
          simpa using (by linarith [machEps_pos] : (0:ℚ) < 2 * machEps)
        have hxs : List.Sublist xs ys := by
          cases hsub with
          | cons _ h => exact (List.sublist_cons_self x xs).trans h
          | cons₂ _ h => exact h
        have hne' : xs = [] → ys = [] := by
          intro hxs0
          subst hxs0
          obtain ⟨hL, hC⟩ := hlast x (by simp)
          have hcount : (x :: ys).count x ≤ 1 := by simpa using hC
          have hys0 : ys.count x = 0 := by
            have : (x :: ys).count x = ys.count x + 1 := by simp
            omega
          by_contra hys
          have hys' : ys ≠ [] := hys
          have hLys : ys.getLast? = some x := by
            rcases ys with _ | ⟨b, l'⟩
            · exact absurd rfl hys'
            · rwa [List.getLast?_cons_cons] at hL
          have hxmem : x ∈ ys := by
            obtain ⟨hne2, hveq⟩ := List.mem_getLast?_eq_getLast hLys
            rw [hveq]
            exact List.getLast_mem hne2
          have := List.count_pos_iff.mpr hxmem
          omega
        have hlast' : ∀ v, xs.getLast? = some v →
            ys.getLast? = some v ∧ ys.count v ≤ xs.count v := by
          intro v hv
          have hxsne : xs ≠ [] := by
            intro h0
            rw [h0] at hv
            simp at hv
          have hsmall : (x :: xs).getLast? = some v := by
            rcases xs with _ | ⟨b, l'⟩
            · exact absurd rfl hxsne
            · rwa [List.getLast?_cons_cons]
          obtain ⟨hL, hC⟩ := hlast v hsmall
          have hysne : ys ≠ [] := by
            intro h0
            subst h0
            exact hxsne (List.sublist_nil.mp hxs)
          have hLys : ys.getLast? = some v := by
            rcases ys with _ | ⟨b, l'⟩
            · exact absurd rfl hysne
            · rwa [List.getLast?_cons_cons] at hL
          refine ⟨hLys, ?_⟩
          by_cases hxv : x = v
          · subst hxv
            have h1 : (x :: ys).count x = ys.count x + 1 := by simp
            have h2 : (x :: xs).count x = xs.count x + 1 := by simp
            omega
          · have h1 : (x :: ys).count v = ys.count v := by
              simp [List.count_cons, hxv]
            have h2 : (x :: xs).count v = xs.count v := by
              simp [List.count_cons, hxv]
            omega
        have hsep' : ∀ a ∈ xs, ∀ b ∈ ys, a = b ∨ 2 * machEps ≤ |a - b| :=
          fun a ha b hb => hsep a (by simp [ha]) b (by simp [hb])
        obtain ⟨d, hscan, hdsub, hmerge⟩ := ih xs hsort' hxs hsep' hne' hlast'
        refine ⟨d, ?_, List.Sublist.cons x hdsub, ?_⟩
        · rw [diffScan, if_pos habs]
          exact hscan
        · rcases d with _ | ⟨z, zs⟩
          · rw [mergeSorted_nil_right] at hmerge ⊢
            rw [hmerge]
          · have hz : x ≤ z := hhead z (hdsub.subset (List.mem_cons_self z zs))
            rw [mergeSorted, if_pos hz, hmerge]
      · have hfar : 2 * machEps ≤ |x - y| :=
          (hsep x (by simp) y (by simp)).resolve_left hxy
        have hnotlt : ¬ (|x - y| < 2 * machEps) := not_lt.mpr hfar
        have hsub' : List.Sublist (x :: xs) ys := by
          cases hsub with
          | cons _ h => exact h
          | cons₂ _ h => exact absurd rfl hxy
        have hne' : x :: xs = [] → ys = [] := by
          intro h0
          exact absurd h0 (by simp)
        have hxys : x ∈ ys := hsub'.subset (List.mem_cons_self x xs)
        have hlast' : ∀ v, (x :: xs).getLast? = some v →
            ys.getLast? = some v ∧ ys.count v ≤ (x :: xs).count v := by
          intro v hv
          obtain ⟨hL, hC⟩ := hlast v hv
          have hysne : ys ≠ [] := by
            intro h0
            subst h0
            simp at hsub'
          have hLys : ys.getLast? = some v := by
            rcases ys with _ | ⟨b, l'⟩
            · exact absurd rfl hysne
            · rwa [List.getLast?_cons_cons] at hL
          refine ⟨hLys, ?_⟩
          by_cases hyv : y = v
          · exfalso
            subst hyv
            have hx_le : x ≤ y :=
              sorted_le_getLast (y :: ys) hsort x (by simp [hxys]) y hL
            have hy_le : y ≤ x := hhead x hxys
            exact hxy (le_antisymm hx_le hy_le)
          · have h1 : (y :: ys).count v = ys.count v := by
              simp [List.count_cons, hyv]
            omega
        have hsep' : ∀ a ∈ x :: xs, ∀ b ∈ ys, a = b ∨ 2 * machEps ≤ |a - b| :=
          fun a ha b hb => hsep a ha b (by simp [hb])
        obtain ⟨d, hscan, hdsub, hmerge⟩ := ih (x :: xs) hsort' hsub' hsep' hne' hlast'
        refine ⟨y :: d, ?_, List.Sublist.cons₂ y hdsub, ?_⟩
        · rw [diffScan, if_neg hnotlt, hscan]
        · have hyx : ¬ (x ≤ y) := by
            have : y ≤ x := hhead x hxys
            intro hle
            exact hxy (le_antisymm hle this)
          rw [mergeSorted, if_neg hyx, hmerge]

/-- `C3` counterexample: with the smaller knot vector `[0,0,1,1]` and
the larger `[0, machEps, 1/2, 1, 1]`, the entry `machEps` of the
larger is within the `2*machEps` tolerance of the smaller's second
`0`, so the scan consumes it as a match and returns only `[1/2]`;
inserting `[1/2]` into the smaller gives `[0,0,1/2,1,1]`, which does
*not* reproduce the larger's knots exactly. -/
theorem difference_counterexample :
    KVDifference ⟨1, 2, [0, 0, 1, 1]⟩ ⟨1, 3, [0, machEps, 1/2, 1, 1]⟩
      = .ok [1/2] ∧
    mergeSorted [0, 0, 1, 1] [1/2] = [0, 0, 1/2, 1, 1] ∧
    [0, 0, (1:ℚ)/2, 1, 1] ≠ [0, machEps, 1/2, 1, 1] := by
  refine ⟨?_, ?_, ?_⟩
  · norm_num [KVDifference, differenceCore, diffScan, KnotVec.size, machEps,
      abs_of_nonneg]
  · norm_num [mergeSorted, mergeSorted_nil_right]
  · norm_num [machEps]

/-- `C3` amended: for KnotVector pairs of equal order, (i) differing
orders are a fatal precondition violation; (ii) when the first vector
is the larger, the roles are swapped and the same result is returned;
(iii) when additionally the larger's knots are sorted, the smaller's
knots form a sub-multiset (sublist) of the larger's, all knot values
are pairwise equal or at least `2×machEps` apart, and the final knot
has the same multiplicity in both (as for clamped vectors), then
`Difference` returns exactly the multiset difference — the knots of
the larger absent from the smaller — in ascending order, and
inserting the returned knots into the smaller reproduces the larger's
knots exactly. -/
theorem difference_amended :
    (∀ a b : KnotVec, a.order ≠ b.order → KVDifference a b = .error ()) ∧
    (∀ a b : KnotVec, a.order = b.order → b.size < a.size →
      KVDifference a b = KVDifference b a) ∧
    (∀ a b : KnotVec, a.order = b.order →
      b.knots.Sorted (· ≤ ·) → List.Sublist a.knots b.knots →
      (∀ x ∈ a.knots, ∀ y ∈ b.knots, x = y ∨ 2 * machEps ≤ |x - y|) →
      (a.knots = [] → b.knots = []) →
      (∀ v, a.knots.getLast? = some v →
        b.knots.getLast? = some v ∧ b.knots.count v ≤ a.knots.count v) →
      ∃ d, KVDifference a b = .ok d ∧ d.Sorted (· ≤ ·) ∧
        mergeSorted a.knots d = b.knots ∧
        (a.knots : Multiset ℚ) + (d : Multiset ℚ) = (b.knots : Multiset ℚ)) := by
  refine ⟨?_, ?_, ?_⟩
  · intro a b hne
    unfold KVDifference
    rw [if_pos hne]
  · intro a b horder hlt
    unfold KVDifference
    rw [if_neg (by simpa using horder), if_pos hlt,
      if_neg (by simpa using horder.symm), if_neg (by omega)]
  · intro a b horder hsort hsub hsep hne hlast
    have hlen : a.knots.length ≤ b.knots.length := hsub.length_le
    by_cases heq : b.knots.length = a.knots.length
    · have hab : a.knots = b.knots := hsub.eq_of_length heq.symm
      refine ⟨[], ?_, by simp, by rw [mergeSorted_nil_right, hab], by simp [hab]⟩
      unfold KVDifference
      rw [if_neg (by simpa using horder), if_neg (by simp [KnotVec.size]; omega)]
      unfold differenceCore
      rw [if_pos heq]
    · obtain ⟨d, hscan, hdsub, hmerge⟩ := diffScan_spec b.knots a.knots hsort hsub
        hsep hne hlast
      have hperm : (a.knots ++ d).Perm b.knots :=
        hmerge ▸ (mergeSorted_perm a.knots d).symm
      have hdlen : d.length = b.knots.length - a.knots.length := by
        have := hperm.length_eq
        simp at this
        omega
      refine ⟨d, ?_, List.Pairwise.sublist hdsub hsort, hmerge, ?_⟩
      · unfold KVDifference
        rw [if_neg (by simpa using horder), if_neg (by simp [KnotVec.size]; omega)]
        unfold differenceCore
        rw [if_neg heq, hscan]
        simp [hdlen]
      · calc (↑a.knots + ↑d : Multiset ℚ) = ↑(a.knots ++ d) := by
              rw [Multiset.coe_add]
          _ = ↑b.knots := Multiset.coe_eq_coe.mpr hperm

/-- Witness for the amended `C3`: the smaller `[0,0,5,5]` against the
larger `[0,0,3,5,5]` (order 1): `Difference` returns `[3]` and
merging reproduces the larger. -/
theorem difference_amended_witness :
    ∃ d, KVDifference ⟨1, 2, [0, 0, 5, 5]⟩ ⟨1, 3, [0, 0, 3, 5, 5]⟩ = .ok d ∧
      d.Sorted (· ≤ ·) ∧
      mergeSorted [0, 0, 5, 5] d = [0, 0, 3, 5, 5] ∧
      (([0, 0, 5, 5] : List ℚ) : Multiset ℚ) + (d : Multiset ℚ)
        = (([0, 0, 3, 5, 5] : List ℚ) : Multiset ℚ) :=
  difference_amended.2.2 ⟨1, 2, [0, 0, 5, 5]⟩ ⟨1, 3, [0, 0, 3, 5, 5]⟩ rfl
    (by decide)
    (by decide)
    (by
      intro x hx y hy
      fin_cases hx <;> fin_cases hy <;> norm_num [machEps])
    (by intro h; exact absurd h (by simp))
    (by
      intro v hv
      have hv5 : v = 5 := by
        simp [List.getLast?] at hv
        linarith
      subst hv5
      exact ⟨by norm_num [List.getLast?], by decide⟩)

end MfemNurbs
